import Mathlib

/-!
Verification of the `threadpool::ThreadPool` class (ThreadPool.h).

The C++ class is embedded shallowly as an interleaving transition system:

* `Task` models one entry of `m_tasks` (a `std::function<void()>` built by
  `addJob`, paired with the id of the `std::promise` it captures).  The body
  may either complete (`Except.ok`), carrying `some v` when the wrapped
  callable returns a value and `none` when it returns `void`, or raise
  (`Except.error`), modelling a C++ exception thrown by the callable.
* `Phase` models the control point of one worker thread inside the loop of
  the constructor (lines 59-77 of ThreadPool.h): `idle` is the wait at the
  top of the loop, `popped` is the window after `m_tasks.pop()` but before
  `m_nActive++`, `running` is the call `fn()`, `ran` is the window after
  `fn()` returned but before `m_nActive--`, `crashed` is a worker whose
  task body threw (no handler exists anywhere in the source, so the
  exception escapes the thread function and `std::terminate` is called),
  and `terminated` is the `return` taken when a stop was requested and the
  queue is empty.
* `ThreadPool` is the state: the members `m_threads`, `m_tasks`,
  `m_nActive` of the class, the states of all `std::promise` shared states
  (`promises`, indexed by the id handed out at `addJob` time), plus ghost
  bookkeeping (`submittedIds`, `executedIds`, `discardedIds`, `droppedIds`,
  `aborted`, `destroyed`, `lateSubmit`) that records history without
  influencing any transition.
* `Step` is one atomic action of any thread: a submitter running `addJob`
  or `clearQueue`, a worker taking one micro-step of its loop, the
  destructor requesting stops (`std::jthread` destructor) and, once every
  worker has exited, destroying the members.

`std::promise`/`std::future` semantics are modelled after the standard
library: a promise starts `pending`, `set_value` makes it `fulfilled`, and
destroying an unfulfilled promise (the task closure being destroyed without
having run) stores a broken-promise error, state `broken`; `future::get` on
a `pending` state blocks, otherwise returns the stored outcome.
-/

namespace threadpool

/-- State of the shared state of one `std::promise`/`std::future` pair.
`fulfilled none` is the void-completion signal (`p->set_value()`),
`fulfilled (some v)` carries a computed value (`p->set_value(v)`),
`failed e` would be a stored exception (`set_exception`, which this source
never calls), `broken` is the broken-promise error stored when a promise is
destroyed before being satisfied. -/
inductive PromiseState (V E : Type) where
  | pending
  | fulfilled (v : Option V)
  | failed (e : E)
  | broken
  deriving DecidableEq

/-- One entry of the task queue `m_tasks`: the closure built by `addJob`
(lines 182-195 of ThreadPool.h) together with the id of the promise it
captured.  Invoking the closure either completes, in which case it has
called `set_value` with `some v` (value-returning callable) or `none`
(void callable), or raises `e` (the callable threw; the closure wraps the
call in no handler). -/
structure Task (V E : Type) where
  tid : Nat
  body : Unit → Except E (Option V)

/-- Control point of one worker thread inside the loop of the constructor. -/
inductive Phase (V E : Type) where
  | idle
  | popped (t : Task V E)
  | running (t : Task V E)
  | ran (t : Task V E)
  | crashed (t : Task V E)
  | terminated

/-- One `std::jthread` of `m_threads`: its control point and whether its
stop token has been requested. -/
structure Worker (V E : Type) where
  phase : Phase V E
  stopReq : Bool

/-- The state of a pool together with the shared states of all promises it
has handed out and ghost history fields. -/
structure ThreadPool (V E : Type) where
  m_threads : List (Worker V E)
  m_tasks : List (Task V E)
  m_nActive : Nat
  promises : Nat → PromiseState V E
  nextId : Nat
  submittedIds : List Nat
  executedIds : List Nat
  discardedIds : List Nat
  droppedIds : List Nat
  aborted : Bool
  destroyed : Bool
  lateSubmit : Bool

variable {V E A : Type}

/-- `threadCount()` of ThreadPool.h: `m_threads.size()`. -/
def threadCount (s : ThreadPool V E) : Nat := s.m_threads.length

/-- `activeCount()` of ThreadPool.h: reads `m_nActive`. -/
def activeCount (s : ThreadPool V E) : Nat := s.m_nActive

/-- `queuedCount()` of ThreadPool.h: `m_tasks.size()` under the lock. -/
def queuedCount (s : ThreadPool V E) : Nat := s.m_tasks.length

/-- Ids of the tasks currently waiting in `m_tasks`. -/
def queueIds (s : ThreadPool V E) : List Nat := s.m_tasks.map Task.tid

/-- Ghost count of tasks submitted so far. -/
def submittedCount (s : ThreadPool V E) : Nat := s.submittedIds.length

/-- Ghost count of task bodies that have run to completion. -/
def completedCount (s : ThreadPool V E) : Nat := s.executedIds.length

/-- The closure `addJob` builds when the callable returns a value:
`p->set_value(std::invoke(fn, args...))` — the promise receives exactly the
value computed from the bound arguments, or the call raises. -/
def valueClosure (f : A → Except E V) (a : A) : Unit → Except E (Option V) :=
  fun _ => (f a).map some

/-- The closure `addJob` builds when the callable returns `void`:
`std::invoke(fn, args...); p->set_value()` — the promise is fulfilled with
the distinct no-value completion signal, or the call raises. -/
def voidClosure (f : A → Except E Unit) (a : A) : Unit → Except E (Option V) :=
  fun _ => (f a).map fun _ => none

/-- Update one promise's shared state. -/
def setPromise (p : Nat → PromiseState V E) (id : Nat) (v : PromiseState V E) :
    Nat → PromiseState V E :=
  fun j => if j = id then v else p j

/-- Destroying the closures holding the listed promises: a promise that is
still `pending` gets the broken-promise error stored in its shared state; a
promise already satisfied keeps its outcome (the future owns it). -/
def breakPromises (p : Nat → PromiseState V E) (ids : List Nat) :
    Nat → PromiseState V E :=
  fun j =>
    if j ∈ ids then
      match p j with
      | .pending => .broken
      | x => x
    else p j

/-- True when the phase is `terminated`. -/
def isTerminated : Phase V E → Bool
  | .terminated => true
  | _ => false

/-- Workers counted by `m_nActive`: those between `m_nActive++` and
`m_nActive--` (a crashed worker never reaches the decrement). -/
def isActivePhase : Phase V E → Bool
  | .running _ => true
  | .ran _ => true
  | .crashed _ => true
  | _ => false

/-- Workers holding a task that has not yet completed: between
`m_tasks.pop()` and the return of `fn()`. -/
def isHeldPhase : Phase V E → Bool
  | .popped _ => true
  | .running _ => true
  | .crashed _ => true
  | _ => false

/-- The not-yet-completed task a worker holds, if any. -/
def heldTaskOf : Phase V E → Option (Task V E)
  | .popped t => some t
  | .running t => some t
  | .crashed t => some t
  | _ => none

/-- The task a worker carries in any phase that mentions one. -/
def anyTaskOf : Phase V E → Option (Task V E)
  | .popped t => some t
  | .running t => some t
  | .ran t => some t
  | .crashed t => some t
  | _ => none

/-- All worker threads have returned. -/
def allTerminatedB (s : ThreadPool V E) : Bool :=
  s.m_threads.all fun w => isTerminated w.phase

/-- The process has not aborted and the pool object still exists. -/
def live (s : ThreadPool V E) : Prop :=
  s.aborted = false ∧ s.destroyed = false

/-- `addJob` (lines 161-202): under the lock, create a fresh promise, build
the closure capturing it, the callable and the bound arguments, and push it
on the back of `m_tasks`; the matching future (the returned handle) is the
id `s.nextId`.  The ghost flag `lateSubmit` records a submission happening
after every worker already exited. -/
def addJob (s : ThreadPool V E) (body : Unit → Except E (Option V)) :
    ThreadPool V E :=
  { s with
    m_tasks := s.m_tasks ++ [⟨s.nextId, body⟩]
    nextId := s.nextId + 1
    submittedIds := s.submittedIds ++ [s.nextId]
    lateSubmit := s.lateSubmit || allTerminatedB s }

/-- `clearQueue` (lines 140-145): under the lock, replace `m_tasks` by a
fresh empty queue.  The discarded closures are destroyed, which destroys
their promises: every discarded pending promise becomes broken. -/
def clearQueue (s : ThreadPool V E) : ThreadPool V E :=
  { s with
    m_tasks := []
    promises := breakPromises s.promises (queueIds s)
    discardedIds := s.discardedIds ++ queueIds s }

/-- End of `~ThreadPool` (`m_threads.clear()` has joined every worker) and
destruction of the remaining members: whatever still sits in `m_tasks` is
destroyed unrun, breaking its pending promises. -/
def destroyPool (s : ThreadPool V E) : ThreadPool V E :=
  { s with
    m_tasks := []
    promises := breakPromises s.promises (queueIds s)
    droppedIds := s.droppedIds ++ queueIds s
    destroyed := true }

/-- Replace worker `i`. -/
def setWorker (s : ThreadPool V E) (i : Nat) (w : Worker V E) : ThreadPool V E :=
  { s with m_threads := s.m_threads.set i w }

/-- `request_stop` on worker `i`'s stop token (`std::jthread` destructor). -/
def stopTarget (s : ThreadPool V E) (i : Nat) (w : Worker V E) : ThreadPool V E :=
  setWorker s i { w with stopReq := true }

/-- Worker `i` executes lines 69-71: `m_tasks.front(); m_tasks.pop();
lk.unlock()`. -/
def popTarget (s : ThreadPool V E) (i : Nat) (w : Worker V E) (t : Task V E)
    (rest : List (Task V E)) : ThreadPool V E :=
  { setWorker s i { w with phase := .popped t } with m_tasks := rest }

/-- Worker `i` takes the `return` of line 66. -/
def terminateTarget (s : ThreadPool V E) (i : Nat) (w : Worker V E) : ThreadPool V E :=
  setWorker s i { w with phase := .terminated }

/-- Worker `i` executes `m_nActive++` (line 73). -/
def incrTarget (s : ThreadPool V E) (i : Nat) (w : Worker V E) (t : Task V E) :
    ThreadPool V E :=
  { setWorker s i { w with phase := .running t } with m_nActive := s.m_nActive + 1 }

/-- Worker `i`'s call `fn()` (line 74) returns normally: inside the closure
the promise has been fulfilled with the computed outcome. -/
def runOkTarget (s : ThreadPool V E) (i : Nat) (w : Worker V E) (t : Task V E)
    (r : Option V) : ThreadPool V E :=
  { setWorker s i { w with phase := .ran t } with
    promises := setPromise s.promises t.tid (.fulfilled r)
    executedIds := s.executedIds ++ [t.tid] }

/-- Worker `i`'s call `fn()` (line 74) raises: no handler exists in the
closure or the loop, the promise is left untouched, the exception escapes
the thread function and the process aborts (`std::terminate`). -/
def runErrTarget (s : ThreadPool V E) (i : Nat) (w : Worker V E) (t : Task V E) :
    ThreadPool V E :=
  { setWorker s i { w with phase := .crashed t } with aborted := true }

/-- Worker `i` executes `m_nActive--` (line 75) and loops. -/
def decrTarget (s : ThreadPool V E) (i : Nat) (w : Worker V E) : ThreadPool V E :=
  { setWorker s i { w with phase := .idle } with m_nActive := s.m_nActive - 1 }

/-- One atomic action of any thread of the program. -/
inductive Step : ThreadPool V E → ThreadPool V E → Prop where
  | submit (s : ThreadPool V E) (body : Unit → Except E (Option V)) :
      live s → Step s (addJob s body)
  | clear (s : ThreadPool V E) :
      live s → Step s (clearQueue s)
  | reqStop (s : ThreadPool V E) (i : Nat) (w : Worker V E) :
      live s → s.m_threads[i]? = some w → Step s (stopTarget s i w)
  | pop (s : ThreadPool V E) (i : Nat) (w : Worker V E) (t : Task V E)
      (rest : List (Task V E)) :
      live s → s.m_threads[i]? = some w → w.phase = .idle →
      s.m_tasks = t :: rest → Step s (popTarget s i w t rest)
  | halt (s : ThreadPool V E) (i : Nat) (w : Worker V E) :
      live s → s.m_threads[i]? = some w → w.phase = .idle →
      w.stopReq = true → s.m_tasks = [] → Step s (terminateTarget s i w)
  | beginTask (s : ThreadPool V E) (i : Nat) (w : Worker V E) (t : Task V E) :
      live s → s.m_threads[i]? = some w → w.phase = .popped t →
      Step s (incrTarget s i w t)
  | runOk (s : ThreadPool V E) (i : Nat) (w : Worker V E) (t : Task V E)
      (r : Option V) :
      live s → s.m_threads[i]? = some w → w.phase = .running t →
      t.body () = .ok r → Step s (runOkTarget s i w t r)
  | runErr (s : ThreadPool V E) (i : Nat) (w : Worker V E) (t : Task V E) (e : E) :
      live s → s.m_threads[i]? = some w → w.phase = .running t →
      t.body () = .error e → Step s (runErrTarget s i w t)
  | endTask (s : ThreadPool V E) (i : Nat) (w : Worker V E) (t : Task V E) :
      live s → s.m_threads[i]? = some w → w.phase = .ran t →
      Step s (decrTarget s i w)
  | destroy (s : ThreadPool V E) :
      live s → allTerminatedB s = true → Step s (destroyPool s)

/-- The state right after the constructor (lines 57-82) returns: `count`
workers spawned, all waiting, nothing queued, `m_nActive == 0`. -/
def init (V E : Type) (count : Nat) : ThreadPool V E :=
  { m_threads := List.replicate count ⟨.idle, false⟩
    m_tasks := []
    m_nActive := 0
    promises := fun _ => .pending
    nextId := 0
    submittedIds := []
    executedIds := []
    discardedIds := []
    droppedIds := []
    aborted := false
    destroyed := false
    lateSubmit := false }

/-- Reflexive-transitive closure of `Step`. -/
inductive Reachable (s0 : ThreadPool V E) : ThreadPool V E → Prop where
  | refl : Reachable s0 s0
  | tail {s s' : ThreadPool V E} (hr : Reachable s0 s) (hs : Step s s') :
      Reachable s0 s'

/-- `std::future::get` / `wait`: observing a result handle.  On a `pending`
shared state the call blocks (no outcome yet, `none`); otherwise it returns
the stored outcome. -/
inductive FutureOutcome (V E : Type) where
  | value (v : Option V)
  | raised (e : E)
  | brokenError
  deriving DecidableEq

/-- Observation of a result handle, `none` meaning the caller blocks. -/
def observeFuture : PromiseState V E → Option (FutureOutcome V E)
  | .pending => none
  | .fulfilled v => some (.value v)
  | .failed e => some (.raised e)
  | .broken => some .brokenError

/-- Worker `i` holds the not-yet-completed task with id `id`. -/
def HeldBy (s : ThreadPool V E) (i : Nat) (id : Nat) : Prop :=
  ∃ w t, s.m_threads[i]? = some w ∧ heldTaskOf w.phase = some t ∧ t.tid = id

/-- Some worker holds the not-yet-completed task with id `id`. -/
def Held (s : ThreadPool V E) (id : Nat) : Prop :=
  ∃ i, HeldBy s i id

/-- The inductive invariant of the pool: queue order and freshness of ids,
the exclusive ownership of every submitted task by exactly one place
(queue, worker, completed, discarded, dropped), the state of every promise
as a function of where its task lives, and the counting facts tying
`m_nActive` to worker phases and all categories to `nextId`. -/
structure Inv (s : ThreadPool V E) : Prop where
  subm_eq : s.submittedIds = List.range s.nextId
  q_sorted : List.Pairwise (fun a b => a < b) (queueIds s)
  q_bound : ∀ id ∈ queueIds s, id < s.nextId
  held_bound : ∀ (i : Nat) (w : Worker V E) (t : Task V E),
    s.m_threads[i]? = some w → anyTaskOf w.phase = some t → t.tid < s.nextId
  exh : ∀ id, id < s.nextId →
    id ∈ queueIds s ∨ Held s id ∨ id ∈ s.executedIds ∨ id ∈ s.discardedIds ∨
      id ∈ s.droppedIds
  held_not_queued : ∀ i id, HeldBy s i id → id ∉ queueIds s
  held_uniq : ∀ i j id, HeldBy s i id → HeldBy s j id → i = j
  pend_q : ∀ id ∈ queueIds s, s.promises id = .pending
  pend_held : ∀ i id, HeldBy s i id → s.promises id = .pending
  done_fulfilled : ∀ id ∈ s.executedIds, ∃ r, s.promises id = .fulfilled r
  disc_broken : ∀ id, (id ∈ s.discardedIds ∨ id ∈ s.droppedIds) →
    s.promises id = .broken
  fresh_pending : ∀ id, s.nextId ≤ id → s.promises id = .pending
  active_eq : s.m_nActive = s.m_threads.countP fun w => isActivePhase w.phase
  balance : queuedCount s + (s.m_threads.countP fun w => isHeldPhase w.phase) +
    s.executedIds.length + s.discardedIds.length + s.droppedIds.length = s.nextId

/-! Concrete executions used to evaluate the theorems on closed inputs. -/

/-- A callable bound to one `Nat` argument that returns `7`. -/
def fseven : Nat → Except Nat Nat := fun _ => Except.ok 7

/-- The closure `addJob` builds for `fseven` and argument `0`. -/
def bodyOk : Unit → Except Nat (Option Nat) := valueClosure fseven 0

/-- The task `addJob` enqueues for `fseven` in a fresh pool. -/
def t7 : Task Nat Nat := ⟨0, bodyOk⟩

def dv1 : ThreadPool Nat Nat := addJob (init Nat Nat 1) bodyOk
def dv2 : ThreadPool Nat Nat := popTarget dv1 0 ⟨.idle, false⟩ t7 []
def dv3 : ThreadPool Nat Nat := incrTarget dv2 0 ⟨.popped t7, false⟩ t7
def dv4 : ThreadPool Nat Nat := runOkTarget dv3 0 ⟨.running t7, false⟩ t7 (some 7)
def dv5 : ThreadPool Nat Nat := decrTarget dv4 0 ⟨.ran t7, false⟩
def dv6 : ThreadPool Nat Nat := stopTarget dv5 0 ⟨.idle, false⟩
def dv7 : ThreadPool Nat Nat := terminateTarget dv6 0 ⟨.idle, true⟩
def dv8 : ThreadPool Nat Nat := destroyPool dv7

/-- A void callable bound to one `Nat` argument. -/
def gvoid : Nat → Except Nat Unit := fun _ => Except.ok Unit.unit

/-- The closure `addJob` builds for `gvoid` and argument `0`. -/
def bodyVoid : Unit → Except Nat (Option Nat) := voidClosure gvoid 0

def tv : Task Nat Nat := ⟨0, bodyVoid⟩

def dz1 : ThreadPool Nat Nat := addJob (init Nat Nat 1) bodyVoid
def dz2 : ThreadPool Nat Nat := popTarget dz1 0 ⟨.idle, false⟩ tv []
def dz3 : ThreadPool Nat Nat := incrTarget dz2 0 ⟨.popped tv, false⟩ tv

/-- A callable that raises failure `5` when invoked. -/
def ferr : Nat → Except Nat Nat := fun _ => Except.error 5

/-- The closure `addJob` builds for `ferr` and argument `0`. -/
def bodyErr : Unit → Except Nat (Option Nat) := valueClosure ferr 0

def te : Task Nat Nat := ⟨0, bodyErr⟩

def df1 : ThreadPool Nat Nat := addJob (init Nat Nat 1) bodyErr
def df2 : ThreadPool Nat Nat := popTarget df1 0 ⟨.idle, false⟩ te []
def df3 : ThreadPool Nat Nat := incrTarget df2 0 ⟨.popped te, false⟩ te
def df4 : ThreadPool Nat Nat := runErrTarget df3 0 ⟨.running te, false⟩ te

/-- Stop requested first, then a task submitted: the worker must drain it. -/
def ds1 : ThreadPool Nat Nat := stopTarget (init Nat Nat 1) 0 ⟨.idle, false⟩
def ds2 : ThreadPool Nat Nat := addJob ds1 bodyOk

/-- Two submissions to a pool with no workers: both stay queued in order. -/
def dq1 : ThreadPool Nat Nat := addJob (init Nat Nat 0) bodyOk
def dq2 : ThreadPool Nat Nat := addJob dq1 bodyOk

/-- One task running on the worker, a second one still queued. -/
def dc4 : ThreadPool Nat Nat := addJob dv3 bodyOk

/-- A task discarded by `clearQueue` before any worker existed to run it. -/
def db1 : ThreadPool Nat Nat := addJob (init Nat Nat 0) bodyOk
def db2 : ThreadPool Nat Nat := clearQueue db1

/-- A pool with zero workers destroyed while a task is still queued. -/
def dk1 : ThreadPool Nat Nat := addJob (init Nat Nat 0) bodyOk
def dk2 : ThreadPool Nat Nat := destroyPool dk1

section ListHelpers

variable {α : Type} {l : List α} {i : Nat} {v w : α} {p : α → Bool}

lemma lt_length_of_getElem? (h : l[i]? = some v) : i < l.length :=
  (List.getElem?_eq_some.mp h).1

lemma countP_set_add (h : l[i]? = some v) :
    (l.set i w).countP p + (if p v then 1 else 0) =
      l.countP p + (if p w then 1 else 0) := by
  induction l generalizing i with
  | nil => simp at h
  | cons a tl ih =>
    cases i with
    | zero =>
      simp only [List.getElem?_cons_zero, Option.some.injEq] at h
      subst h
      simp [List.countP_cons]
      omega
    | succ n =>
      simp only [List.getElem?_cons_succ] at h
      simp only [List.set_cons_succ, List.countP_cons]
      have := ih h
      omega

lemma countP_pos_of_getElem? (h : l[i]? = some v) (hp : p v = true) :
    1 ≤ l.countP p := by
  induction l generalizing i with
  | nil => simp at h
  | cons a tl ih =>
    cases i with
    | zero =>
      simp only [List.getElem?_cons_zero, Option.some.injEq] at h
      subst h
      simp [List.countP_cons, hp]
    | succ n =>
      simp only [List.getElem?_cons_succ] at h
      have := ih h
      simp [List.countP_cons]
      omega

lemma all_set_congr (h : l[i]? = some v) (hp : p w = p v) :
    (l.set i w).all p = l.all p := by
  induction l generalizing i with
  | nil => simp
  | cons a tl ih =>
    cases i with
    | zero =>
      simp only [List.getElem?_cons_zero, Option.some.injEq] at h
      subst h
      simp [List.all_cons, hp]
    | succ n =>
      simp only [List.getElem?_cons_succ] at h
      simp [List.all_cons, ih h]

lemma all_set_false (h : l[i]? = some v) (hp : p w = false) :
    (l.set i w).all p = false := by
  have hlt : i < l.length := lt_length_of_getElem? h
  have hmem : w ∈ l.set i w := by
    have : (l.set i w)[i]? = some w := List.getElem?_set_self (by simpa using hlt)
    exact List.getElem?_mem this
  rw [Bool.eq_false_iff]
  intro hall
  have := List.all_eq_true.mp hall w hmem
  rw [hp] at this
  exact Bool.false_ne_true this

end ListHelpers

lemma anyTaskOf_of_heldTaskOf {ph : Phase V E} {t : Task V E}
    (h : heldTaskOf ph = some t) : anyTaskOf ph = some t := by
  cases ph <;> simp_all [heldTaskOf, anyTaskOf]

lemma phase_eq_of_isTerminated {ph : Phase V E} (h : isTerminated ph = true) :
    ph = .terminated := by
  cases ph <;> simp_all [isTerminated]

lemma heldBy_setWorker_ne {s : ThreadPool V E} {i j id : Nat} {w' : Worker V E}
    (hne : j ≠ i) : HeldBy (setWorker s i w') j id ↔ HeldBy s j id := by
  unfold HeldBy setWorker
  simp only
  rw [List.getElem?_set_ne (Ne.symm hne)]

lemma heldBy_setWorker_self {s : ThreadPool V E} {i id : Nat} {w' : Worker V E}
    (hlen : i < s.m_threads.length) :
    HeldBy (setWorker s i w') i id ↔
      ∃ t, heldTaskOf w'.phase = some t ∧ t.tid = id := by
  unfold HeldBy setWorker
  simp only [List.getElem?_set_self (by simpa using hlen)]
  constructor
  · rintro ⟨u, t, hu, ht, hid⟩
    obtain rfl : w' = u := Option.some_inj.mp hu
    exact ⟨t, ht, hid⟩
  · rintro ⟨t, ht, hid⟩
    exact ⟨w', t, rfl, ht, hid⟩

lemma heldBy_setWorker_congr {s : ThreadPool V E} {i : Nat} {w w' : Worker V E}
    (h : s.m_threads[i]? = some w)
    (hsame : heldTaskOf w'.phase = heldTaskOf w.phase) (j id : Nat) :
    HeldBy (setWorker s i w') j id ↔ HeldBy s j id := by
  by_cases hj : j = i
  · subst hj
    rw [heldBy_setWorker_self (lt_length_of_getElem? h)]
    constructor
    · rintro ⟨t, ht, hid⟩
      exact ⟨w, t, h, hsame ▸ ht, hid⟩
    · rintro ⟨u, t, hu, ht, hid⟩
      rw [h] at hu
      cases hu
      exact ⟨t, hsame ▸ ht, hid⟩
  · exact heldBy_setWorker_ne hj

lemma held_setWorker_congr {s : ThreadPool V E} {i : Nat} {w w' : Worker V E}
    (h : s.m_threads[i]? = some w)
    (hsame : heldTaskOf w'.phase = heldTaskOf w.phase) (id : Nat) :
    Held (setWorker s i w') id ↔ Held s id := by
  unfold Held
  constructor
  · rintro ⟨j, hj⟩
    exact ⟨j, (heldBy_setWorker_congr h hsame j id).mp hj⟩
  · rintro ⟨j, hj⟩
    exact ⟨j, (heldBy_setWorker_congr h hsame j id).mpr hj⟩

lemma inv_init (n : Nat) : Inv (init V E n) := by
  have hmem : ∀ (i : Nat) (w : Worker V E),
      (init V E n).m_threads[i]? = some w →
      w = { phase := .idle, stopReq := false } := by
    intro i w h
    exact List.eq_of_mem_replicate (List.getElem?_mem h)
  have hnoheld : ∀ (i id : Nat), ¬ HeldBy (init V E n) i id := by
    rintro i id ⟨w, t, hw, ht, _⟩
    rw [hmem i w hw] at ht
    simp [heldTaskOf] at ht
  constructor
  case subm_eq => simp [init]
  case q_sorted => simp [init, queueIds]
  case q_bound => simp [init, queueIds]
  case held_bound =>
    intro i w t h ht
    rw [hmem i w h] at ht
    simp [anyTaskOf] at ht
  case exh =>
    intro id hid
    simp [init] at hid
  case held_not_queued =>
    intro i id h
    exact absurd h (hnoheld i id)
  case held_uniq =>
    intro i j id hi _
    exact absurd hi (hnoheld i id)
  case pend_q => simp [init, queueIds]
  case pend_held =>
    intro i id h
    exact absurd h (hnoheld i id)
  case done_fulfilled => simp [init]
  case disc_broken => simp [init]
  case fresh_pending => simp [init]
  case active_eq =>
    have h0 : (init V E n).m_nActive = 0 := rfl
    rw [h0]
    symm
    rw [List.countP_eq_zero]
    intro w hw
    rw [List.eq_of_mem_replicate hw]
    simp [isActivePhase]
  case balance =>
    have : ((init V E n).m_threads.countP fun w => isHeldPhase w.phase) = 0 := by
      rw [List.countP_eq_zero]
      intro w hw
      rw [List.eq_of_mem_replicate hw]
      simp [isHeldPhase]
    simp [init, queuedCount] at this ⊢
    exact this

lemma heldBy_threads_eq {s u : ThreadPool V E} (h : s.m_threads = u.m_threads)
    (j id : Nat) : HeldBy s j id ↔ HeldBy u j id := by
  unfold HeldBy
  rw [h]

/-- Preservation of `Inv` by any worker micro-step that replaces the phase
of one worker without touching the queue, the promises or the ghost lists:
covers the stop request, the terminating `return`, `m_nActive++`, a body
raising, and `m_nActive--`. -/
lemma inv_worker_step {s t : ThreadPool V E} {i : Nat} {w w' : Worker V E}
    (hInv : Inv s) (h : s.m_threads[i]? = some w)
    (ht : t.m_threads = s.m_threads.set i w')
    (htasks : t.m_tasks = s.m_tasks) (hprom : t.promises = s.promises)
    (hnext : t.nextId = s.nextId) (hsubm : t.submittedIds = s.submittedIds)
    (hexec : t.executedIds = s.executedIds)
    (hdisc : t.discardedIds = s.discardedIds)
    (hdrop : t.droppedIds = s.droppedIds)
    (hHeld : heldTaskOf w'.phase = heldTaskOf w.phase)
    (hAny : ∀ u, anyTaskOf w'.phase = some u → anyTaskOf w.phase = some u)
    (hHeldP : isHeldPhase w'.phase = isHeldPhase w.phase)
    (hm : t.m_nActive + (if isActivePhase w.phase then 1 else 0) =
      s.m_nActive + (if isActivePhase w'.phase then 1 else 0)) :
    Inv t := by
  have hq : queueIds t = queueIds s := by
    unfold queueIds
    rw [htasks]
  have hiff : ∀ j id, HeldBy t j id ↔ HeldBy s j id := by
    intro j id
    exact (heldBy_threads_eq ht j id).trans (heldBy_setWorker_congr h hHeld j id)
  have hiffH : ∀ id, Held t id ↔ Held s id := by
    intro id
    exact exists_congr fun j => hiff j id
  constructor
  case subm_eq =>
    rw [hsubm, hnext]
    exact hInv.subm_eq
  case q_sorted =>
    rw [hq]
    exact hInv.q_sorted
  case q_bound =>
    simp only [hq, hnext]
    exact hInv.q_bound
  case held_bound =>
    intro j u tk hj htk
    rw [ht] at hj
    rw [hnext]
    by_cases hji : j = i
    · subst hji
      rw [List.getElem?_set_self (lt_length_of_getElem? h)] at hj
      obtain rfl : w' = u := Option.some_inj.mp hj
      exact hInv.held_bound j w tk h (hAny tk htk)
    · rw [List.getElem?_set_ne (Ne.symm hji)] at hj
      exact hInv.held_bound j u tk hj htk
  case exh =>
    intro id hid
    rw [hnext] at hid
    simp only [hq, hiffH, hexec, hdisc, hdrop]
    exact hInv.exh id hid
  case held_not_queued =>
    intro j id hj
    rw [hiff] at hj
    rw [hq]
    exact hInv.held_not_queued j id hj
  case held_uniq =>
    intro j k id hj hk
    rw [hiff] at hj hk
    exact hInv.held_uniq j k id hj hk
  case pend_q =>
    simp only [hq, hprom]
    exact hInv.pend_q
  case pend_held =>
    intro j id hj
    rw [hiff] at hj
    rw [hprom]
    exact hInv.pend_held j id hj
  case done_fulfilled =>
    simp only [hexec, hprom]
    exact hInv.done_fulfilled
  case disc_broken =>
    simp only [hdisc, hdrop, hprom]
    exact hInv.disc_broken
  case fresh_pending =>
    simp only [hnext, hprom]
    exact hInv.fresh_pending
  case active_eq =>
    rw [ht]
    have hc := countP_set_add (p := fun u : Worker V E => isActivePhase u.phase)
      (w := w') h
    simp only at hc
    have ha := hInv.active_eq
    omega
  case balance =>
    rw [ht]
    have hc := countP_set_add (p := fun u : Worker V E => isHeldPhase u.phase)
      (w := w') h
    simp only at hc
    have hAB : (if isHeldPhase w'.phase = true then 1 else 0) =
        (if isHeldPhase w.phase = true then 1 else 0 : Nat) := by
      simp only [hHeldP]
    have hb := hInv.balance
    have hqc : queuedCount t = queuedCount s := by
      unfold queuedCount
      rw [htasks]
    simp only [hqc, hexec, hdisc, hdrop, hnext]
    omega

lemma inv_stopTarget {s : ThreadPool V E} {i : Nat} {w : Worker V E}
    (hInv : Inv s) (h : s.m_threads[i]? = some w) : Inv (stopTarget s i w) :=
  inv_worker_step hInv h rfl rfl rfl rfl rfl rfl rfl rfl rfl
    (fun _ hu => hu) rfl rfl

lemma inv_terminateTarget {s : ThreadPool V E} {i : Nat} {w : Worker V E}
    (hInv : Inv s) (h : s.m_threads[i]? = some w) (hidle : w.phase = .idle) :
    Inv (terminateTarget s i w) :=
  inv_worker_step hInv h rfl rfl rfl rfl rfl rfl rfl rfl
    (by rw [hidle]; rfl) (by intro u hu; simp [anyTaskOf] at hu)
    (by rw [hidle]; rfl) (by rw [hidle]; rfl)

lemma inv_incrTarget {s : ThreadPool V E} {i : Nat} {w : Worker V E}
    {t : Task V E} (hInv : Inv s) (h : s.m_threads[i]? = some w)
    (hpop : w.phase = .popped t) : Inv (incrTarget s i w t) :=
  inv_worker_step hInv h rfl rfl rfl rfl rfl rfl rfl rfl
    (by rw [hpop]; rfl) (by intro u hu; rw [hpop]; exact hu)
    (by rw [hpop]; rfl) (by rw [hpop]; rfl)

lemma inv_runErrTarget {s : ThreadPool V E} {i : Nat} {w : Worker V E}
    {t : Task V E} (hInv : Inv s) (h : s.m_threads[i]? = some w)
    (hrun : w.phase = .running t) : Inv (runErrTarget s i w t) :=
  inv_worker_step hInv h rfl rfl rfl rfl rfl rfl rfl rfl
    (by rw [hrun]; rfl) (by intro u hu; rw [hrun]; exact hu)
    (by rw [hrun]; rfl) (by rw [hrun]; rfl)

lemma inv_decrTarget {s : ThreadPool V E} {i : Nat} {w : Worker V E}
    {t : Task V E} (hInv : Inv s) (h : s.m_threads[i]? = some w)
    (hran : w.phase = .ran t) : Inv (decrTarget s i w) := by
  have hpos : 1 ≤ s.m_threads.countP fun u : Worker V E => isActivePhase u.phase :=
    countP_pos_of_getElem? h (by rw [hran]; rfl)
  have hn : 1 ≤ s.m_nActive := by
    rw [hInv.active_eq]
    exact hpos
  exact inv_worker_step hInv h rfl rfl rfl rfl rfl rfl rfl rfl
    (by rw [hran]; rfl) (by intro u hu; simp [anyTaskOf] at hu)
    (by rw [hran]; rfl)
    (by
      rw [hran]
      show s.m_nActive - 1 + 1 = s.m_nActive + 0
      omega)

lemma heldBy_id_lt {s : ThreadPool V E} {j id : Nat} (hInv : Inv s)
    (hj : HeldBy s j id) : id < s.nextId := by
  obtain ⟨w, t, hw, ht, hid⟩ := hj
  subst hid
  exact hInv.held_bound j w t hw (anyTaskOf_of_heldTaskOf ht)

lemma inv_addJob {s : ThreadPool V E} (hInv : Inv s)
    (body : Unit → Except E (Option V)) : Inv (addJob s body) := by
  have hq : queueIds (addJob s body) = queueIds s ++ [s.nextId] := by
    simp [queueIds, addJob]
  have hiff : ∀ j id, HeldBy (addJob s body) j id ↔ HeldBy s j id := fun j id =>
    heldBy_threads_eq rfl j id
  constructor
  case subm_eq =>
    show s.submittedIds ++ [s.nextId] = List.range (s.nextId + 1)
    rw [hInv.subm_eq, List.range_succ]
  case q_sorted =>
    rw [hq, List.pairwise_append]
    refine ⟨hInv.q_sorted, by simp, ?_⟩
    intro a ha b hb
    rw [List.mem_singleton] at hb
    subst hb
    exact hInv.q_bound a ha
  case q_bound =>
    rw [hq]
    intro id hid
    rcases List.mem_append.mp hid with hl | hr
    · exact Nat.lt_succ_of_lt (hInv.q_bound id hl)
    · rw [List.mem_singleton] at hr
      subst hr
      exact Nat.lt_succ_self _
  case held_bound =>
    intro j u tk hj htk
    exact Nat.lt_succ_of_lt (hInv.held_bound j u tk hj htk)
  case exh =>
    intro id hid
    show id ∈ queueIds (addJob s body) ∨ Held (addJob s body) id ∨
      id ∈ s.executedIds ∨ id ∈ s.discardedIds ∨ id ∈ s.droppedIds
    rcases Nat.lt_succ_iff_lt_or_eq.mp hid with hlt | heq
    · rcases hInv.exh id hlt with h1 | h2 | h3 | h4 | h5
      · left
        rw [hq]
        exact List.mem_append_left _ h1
      · right; left
        obtain ⟨j, hj⟩ := h2
        exact ⟨j, (hiff j id).mpr hj⟩
      · right; right; left; exact h3
      · right; right; right; left; exact h4
      · right; right; right; right; exact h5
    · left
      rw [hq, heq]
      exact List.mem_append_right _ (List.mem_singleton_self _)
  case held_not_queued =>
    intro j id hj
    rw [hiff] at hj
    have hlt : id < s.nextId := heldBy_id_lt hInv hj
    rw [hq]
    intro hmem
    rcases List.mem_append.mp hmem with hl | hr
    · exact hInv.held_not_queued j id hj hl
    · rw [List.mem_singleton] at hr
      omega
  case held_uniq =>
    intro j k id hj hk
    rw [hiff] at hj hk
    exact hInv.held_uniq j k id hj hk
  case pend_q =>
    rw [hq]
    intro id hid
    rcases List.mem_append.mp hid with hl | hr
    · exact hInv.pend_q id hl
    · rw [List.mem_singleton] at hr
      subst hr
      exact hInv.fresh_pending _ (Nat.le_refl _)
  case pend_held =>
    intro j id hj
    rw [hiff] at hj
    exact hInv.pend_held j id hj
  case done_fulfilled => exact hInv.done_fulfilled
  case disc_broken => exact hInv.disc_broken
  case fresh_pending =>
    intro id hid
    exact hInv.fresh_pending id (Nat.le_of_succ_le hid)
  case active_eq => exact hInv.active_eq
  case balance =>
    have hb := hInv.balance
    unfold queuedCount at hb ⊢
    simp only [addJob, List.length_append, List.length_singleton]
    omega

section BreakLemmas

variable {p : Nat → PromiseState V E} {ids : List Nat} {id : Nat}

lemma breakPromises_not_mem (hid : id ∉ ids) : breakPromises p ids id = p id := by
  simp [breakPromises, hid]

lemma breakPromises_pending_mem (hid : id ∈ ids) (hp : p id = .pending) :
    breakPromises p ids id = .broken := by
  simp [breakPromises, hid, hp]

lemma breakPromises_fulfilled {r : Option V} (hp : p id = .fulfilled r) :
    breakPromises p ids id = .fulfilled r := by
  by_cases h : id ∈ ids <;> simp [breakPromises, h, hp]

lemma breakPromises_broken (hp : p id = .broken) :
    breakPromises p ids id = .broken := by
  by_cases h : id ∈ ids <;> simp [breakPromises, h, hp]

end BreakLemmas

/-- Preservation of `Inv` by emptying the queue and destroying the dequeued
closures, whether through `clearQueue` or through member destruction at the
end of `~ThreadPool`. -/
lemma inv_empty_queue {s t : ThreadPool V E}
    (hInv : Inv s) (ht : t.m_threads = s.m_threads) (htasks : t.m_tasks = [])
    (hprom : t.promises = breakPromises s.promises (queueIds s))
    (hnext : t.nextId = s.nextId) (hsubm : t.submittedIds = s.submittedIds)
    (hexec : t.executedIds = s.executedIds) (hact : t.m_nActive = s.m_nActive)
    (hlists : (t.discardedIds = s.discardedIds ++ queueIds s ∧
        t.droppedIds = s.droppedIds) ∨
      (t.discardedIds = s.discardedIds ∧
        t.droppedIds = s.droppedIds ++ queueIds s)) :
    Inv t := by
  have hqt : queueIds t = [] := by
    unfold queueIds
    rw [htasks]
    rfl
  have hiff : ∀ j id, HeldBy t j id ↔ HeldBy s j id := fun j id =>
    heldBy_threads_eq ht j id
  constructor
  case subm_eq =>
    rw [hsubm, hnext]
    exact hInv.subm_eq
  case q_sorted =>
    rw [hqt]
    exact List.Pairwise.nil
  case q_bound =>
    rw [hqt]
    intro id hid
    exact absurd hid (List.not_mem_nil id)
  case held_bound =>
    intro j u tk hj htk
    rw [ht] at hj
    rw [hnext]
    exact hInv.held_bound j u tk hj htk
  case exh =>
    intro id hid
    rw [hnext] at hid
    rcases hInv.exh id hid with h1 | h2 | h3 | h4 | h5
    · rcases hlists with ⟨hd, _⟩ | ⟨_, hd⟩
      · right; right; right; left
        rw [hd]
        exact List.mem_append_right _ h1
      · right; right; right; right
        rw [hd]
        exact List.mem_append_right _ h1
    · right; left
      obtain ⟨j, hj⟩ := h2
      exact ⟨j, (hiff j id).mpr hj⟩
    · right; right; left
      rw [hexec]
      exact h3
    · right; right; right; left
      rcases hlists with ⟨hd, _⟩ | ⟨hd, _⟩ <;> rw [hd]
      · exact List.mem_append_left _ h4
      · exact h4
    · right; right; right; right
      rcases hlists with ⟨_, hd⟩ | ⟨_, hd⟩ <;> rw [hd]
      · exact h5
      · exact List.mem_append_left _ h5
  case held_not_queued =>
    intro j id hj
    rw [hqt]
    exact List.not_mem_nil id
  case held_uniq =>
    intro j k id hj hk
    rw [hiff] at hj hk
    exact hInv.held_uniq j k id hj hk
  case pend_q =>
    rw [hqt]
    intro id hid
    exact absurd hid (List.not_mem_nil id)
  case pend_held =>
    intro j id hj
    rw [hiff] at hj
    rw [hprom]
    rw [breakPromises_not_mem (hInv.held_not_queued j id hj)]
    exact hInv.pend_held j id hj
  case done_fulfilled =>
    intro id hid
    rw [hexec] at hid
    obtain ⟨r, hr⟩ := hInv.done_fulfilled id hid
    exact ⟨r, by rw [hprom, breakPromises_fulfilled hr]⟩
  case disc_broken =>
    intro id hor
    rw [hprom]
    have hold : id ∈ s.discardedIds ∨ id ∈ s.droppedIds ∨ id ∈ queueIds s := by
      rcases hlists with ⟨hd, he⟩ | ⟨hd, he⟩ <;> rw [hd, he] at hor <;>
        rcases hor with h | h
      · rcases List.mem_append.mp h with h' | h'
        · exact Or.inl h'
        · exact Or.inr (Or.inr h')
      · exact Or.inr (Or.inl h)
      · exact Or.inl h
      · rcases List.mem_append.mp h with h' | h'
        · exact Or.inr (Or.inl h')
        · exact Or.inr (Or.inr h')
    rcases hold with h | h | h
    · exact breakPromises_broken (hInv.disc_broken id (Or.inl h))
    · exact breakPromises_broken (hInv.disc_broken id (Or.inr h))
    · exact breakPromises_pending_mem h (hInv.pend_q id h)
  case fresh_pending =>
    intro id hid
    rw [hnext] at hid
    rw [hprom]
    have hnm : id ∉ queueIds s := by
      intro hmem
      exact absurd (hInv.q_bound id hmem) (Nat.not_lt.mpr hid)
    rw [breakPromises_not_mem hnm]
    exact hInv.fresh_pending id hid
  case active_eq =>
    rw [hact, ht]
    exact hInv.active_eq
  case balance =>
    have hb := hInv.balance
    have hql : (queueIds s).length = queuedCount s := by
      unfold queueIds queuedCount
      exact List.length_map _ _
    have hqt0 : queuedCount t = 0 := by
      unfold queuedCount
      rw [htasks]
      rfl
    rw [hqt0, ht, hnext, hexec]
    rcases hlists with ⟨hd, he⟩ | ⟨hd, he⟩ <;> rw [hd, he] <;>
      rw [List.length_append] <;> omega

lemma inv_clearQueue {s : ThreadPool V E} (hInv : Inv s) :
    Inv (clearQueue s) :=
  inv_empty_queue hInv rfl rfl rfl rfl rfl rfl rfl (Or.inl ⟨rfl, rfl⟩)

lemma inv_destroyPool {s : ThreadPool V E} (hInv : Inv s) :
    Inv (destroyPool s) :=
  inv_empty_queue hInv rfl rfl rfl rfl rfl rfl rfl (Or.inr ⟨rfl, rfl⟩)

lemma inv_popTarget {s : ThreadPool V E} {i : Nat} {w : Worker V E}
    {t : Task V E} {rest : List (Task V E)} (hInv : Inv s)
    (h : s.m_threads[i]? = some w) (hidle : w.phase = .idle)
    (htasks : s.m_tasks = t :: rest) : Inv (popTarget s i w t rest) := by
  have hlen : i < s.m_threads.length := lt_length_of_getElem? h
  have hq : queueIds s = t.tid :: rest.map Task.tid := by
    unfold queueIds
    rw [htasks]
    rfl
  have hqt : queueIds (popTarget s i w t rest) = rest.map Task.tid := rfl
  have hth : (popTarget s i w t rest).m_threads =
      s.m_threads.set i { w with phase := .popped t } := rfl
  have hiffNe : ∀ j id, j ≠ i →
      (HeldBy (popTarget s i w t rest) j id ↔ HeldBy s j id) := by
    intro j id hne
    exact (heldBy_threads_eq
      (u := setWorker s i { w with phase := .popped t }) rfl j id).trans
      (heldBy_setWorker_ne hne)
  have hSelf : ∀ id, HeldBy (popTarget s i w t rest) i id ↔ id = t.tid := by
    intro id
    refine (heldBy_threads_eq
      (u := setWorker s i { w with phase := .popped t }) rfl i id).trans ?_
    rw [heldBy_setWorker_self hlen]
    constructor
    · rintro ⟨u, hu, hid⟩
      simp [heldTaskOf] at hu
      rw [← hid, hu]
    · intro hid
      exact ⟨t, rfl, hid.symm⟩
  have hNoHeldS : ∀ id, ¬ HeldBy s i id := by
    rintro id ⟨u, tk, hu, htk, _⟩
    rw [h] at hu
    obtain rfl : w = u := Option.some_inj.mp hu
    rw [hidle] at htk
    simp [heldTaskOf] at htk
  have htidq : t.tid ∈ queueIds s := by
    rw [hq]
    exact List.mem_cons_self _ _
  have hNoHeld_t : ∀ j, ¬ HeldBy s j t.tid := by
    intro j hj
    exact hInv.held_not_queued j t.tid hj htidq
  have htid_not_rest : t.tid ∉ rest.map Task.tid := by
    have := hInv.q_sorted
    rw [hq] at this
    intro hmem
    have hlt := (List.pairwise_cons.mp this).1 t.tid hmem
    omega
  constructor
  case subm_eq => exact hInv.subm_eq
  case q_sorted =>
    rw [hqt]
    have := hInv.q_sorted
    rw [hq] at this
    exact this.of_cons
  case q_bound =>
    rw [hqt]
    intro id hid
    refine hInv.q_bound id ?_
    rw [hq]
    exact List.mem_cons_of_mem _ hid
  case held_bound =>
    intro j u tk hj htk
    rw [hth] at hj
    by_cases hji : j = i
    · subst hji
      rw [List.getElem?_set_self hlen] at hj
      obtain rfl : ({ w with phase := .popped t } : Worker V E) = u :=
        Option.some_inj.mp hj
      simp [anyTaskOf] at htk
      rw [← htk]
      exact hInv.q_bound t.tid htidq
    · rw [List.getElem?_set_ne (Ne.symm hji)] at hj
      exact hInv.held_bound j u tk hj htk
  case exh =>
    intro id hid
    rcases hInv.exh id hid with h1 | h2 | h3 | h4 | h5
    · rw [hq] at h1
      rcases List.mem_cons.mp h1 with heq | hmem
      · right; left
        exact ⟨i, (hSelf id).mpr heq⟩
      · left
        rw [hqt]
        exact hmem
    · right; left
      obtain ⟨j, hj⟩ := h2
      have hne : j ≠ i := by
        intro hji
        subst hji
        exact hNoHeldS id hj
      exact ⟨j, (hiffNe j id hne).mpr hj⟩
    · right; right; left; exact h3
    · right; right; right; left; exact h4
    · right; right; right; right; exact h5
  case held_not_queued =>
    intro j id hj
    rw [hqt]
    by_cases hji : j = i
    · subst hji
      rw [hSelf id] at hj
      subst hj
      exact htid_not_rest
    · rw [hiffNe j id hji] at hj
      have := hInv.held_not_queued j id hj
      rw [hq] at this
      intro hmem
      exact this (List.mem_cons_of_mem _ hmem)
  case held_uniq =>
    intro j k id hj hk
    by_cases hji : j = i <;> by_cases hki : k = i
    · rw [hji, hki]
    · subst hji
      rw [hSelf id] at hj
      subst hj
      rw [hiffNe k t.tid hki] at hk
      exact absurd hk (hNoHeld_t k)
    · subst hki
      rw [hSelf id] at hk
      subst hk
      rw [hiffNe j t.tid hji] at hj
      exact absurd hj (hNoHeld_t j)
    · rw [hiffNe j id hji] at hj
      rw [hiffNe k id hki] at hk
      exact hInv.held_uniq j k id hj hk
  case pend_q =>
    intro id hid
    rw [hqt] at hid
    refine hInv.pend_q id ?_
    rw [hq]
    exact List.mem_cons_of_mem _ hid
  case pend_held =>
    intro j id hj
    by_cases hji : j = i
    · subst hji
      rw [hSelf id] at hj
      subst hj
      exact hInv.pend_q t.tid htidq
    · rw [hiffNe j id hji] at hj
      exact hInv.pend_held j id hj
  case done_fulfilled => exact hInv.done_fulfilled
  case disc_broken => exact hInv.disc_broken
  case fresh_pending => exact hInv.fresh_pending
  case active_eq =>
    rw [hth]
    have hc := countP_set_add (p := fun u : Worker V E => isActivePhase u.phase)
      (w := { w with phase := .popped t }) h
    simp only at hc
    have h1 : isActivePhase w.phase = false := by
      rw [hidle]
      rfl
    have h2 : isActivePhase (Phase.popped t : Phase V E) = false := rfl
    simp only [h1, h2, Bool.false_eq_true, if_false] at hc
    have ha := hInv.active_eq
    have hact : (popTarget s i w t rest).m_nActive = s.m_nActive := rfl
    rw [hact]
    omega
  case balance =>
    rw [hth]
    have hc := countP_set_add (p := fun u : Worker V E => isHeldPhase u.phase)
      (w := { w with phase := .popped t }) h
    simp only at hc
    have h1 : isHeldPhase w.phase = false := by
      rw [hidle]
      rfl
    have h2 : isHeldPhase (Phase.popped t : Phase V E) = true := rfl
    simp only [h1, h2, Bool.false_eq_true, if_false, if_true] at hc
    have hb := hInv.balance
    have hql : queuedCount s = rest.length + 1 := by
      unfold queuedCount
      rw [htasks]
      rfl
    have hqt0 : queuedCount (popTarget s i w t rest) = rest.length := rfl
    have e1 : (popTarget s i w t rest).nextId = s.nextId := rfl
    have e2 : (popTarget s i w t rest).executedIds = s.executedIds := rfl
    have e3 : (popTarget s i w t rest).discardedIds = s.discardedIds := rfl
    have e4 : (popTarget s i w t rest).droppedIds = s.droppedIds := rfl
    rw [hqt0, e1, e2, e3, e4]
    omega

lemma inv_runOkTarget {s : ThreadPool V E} {i : Nat} {w : Worker V E}
    {t : Task V E} {r : Option V} (hInv : Inv s)
    (h : s.m_threads[i]? = some w) (hrun : w.phase = .running t) :
    Inv (runOkTarget s i w t r) := by
  have hlen : i < s.m_threads.length := lt_length_of_getElem? h
  have hheld_i : HeldBy s i t.tid := ⟨w, t, h, by rw [hrun]; rfl, rfl⟩
  have htid_pend : s.promises t.tid = .pending := hInv.pend_held i t.tid hheld_i
  have htid_lt : t.tid < s.nextId :=
    hInv.held_bound i w t h (by rw [hrun]; rfl)
  have htid_not_q : t.tid ∉ queueIds s := hInv.held_not_queued i t.tid hheld_i
  have hth : (runOkTarget s i w t r).m_threads =
      s.m_threads.set i { w with phase := .ran t } := rfl
  have hiffNe : ∀ j id, j ≠ i →
      (HeldBy (runOkTarget s i w t r) j id ↔ HeldBy s j id) := by
    intro j id hne
    exact (heldBy_threads_eq
      (u := setWorker s i { w with phase := .ran t }) rfl j id).trans
      (heldBy_setWorker_ne hne)
  have hNoSelf : ∀ id, ¬ HeldBy (runOkTarget s i w t r) i id := by
    intro id hid
    have := (heldBy_threads_eq
      (u := setWorker s i { w with phase := .ran t }) rfl i id).mp hid
    rw [heldBy_setWorker_self hlen] at this
    obtain ⟨u, hu, _⟩ := this
    simp [heldTaskOf] at hu
  have hOtherNe : ∀ j id, j ≠ i → HeldBy s j id → id ≠ t.tid := by
    intro j id hne hj hid
    subst hid
    exact hne (hInv.held_uniq j i t.tid hj hheld_i)
  have hprom : ∀ id, (runOkTarget s i w t r).promises id =
      setPromise s.promises t.tid (.fulfilled r) id := fun _ => rfl
  have hpne : ∀ id, id ≠ t.tid →
      setPromise s.promises t.tid (.fulfilled r) id = s.promises id := by
    intro id hid
    simp [setPromise, hid]
  have hpeq : setPromise s.promises t.tid (.fulfilled r) t.tid = .fulfilled r := by
    simp [setPromise]
  constructor
  case subm_eq => exact hInv.subm_eq
  case q_sorted => exact hInv.q_sorted
  case q_bound => exact hInv.q_bound
  case held_bound =>
    intro j u tk hj htk
    rw [hth] at hj
    by_cases hji : j = i
    · subst hji
      rw [List.getElem?_set_self hlen] at hj
      obtain rfl : ({ w with phase := .ran t } : Worker V E) = u :=
        Option.some_inj.mp hj
      simp [anyTaskOf] at htk
      rw [← htk]
      exact htid_lt
    · rw [List.getElem?_set_ne (Ne.symm hji)] at hj
      exact hInv.held_bound j u tk hj htk
  case exh =>
    intro id hid
    rcases hInv.exh id hid with h1 | h2 | h3 | h4 | h5
    · left; exact h1
    · obtain ⟨j, hj⟩ := h2
      by_cases hji : j = i
      · subst hji
        obtain ⟨u, tk, hu, htk, hidk⟩ := hj
        rw [h] at hu
        obtain rfl : w = u := Option.some_inj.mp hu
        rw [hrun] at htk
        simp [heldTaskOf] at htk
        right; right; left
        show id ∈ s.executedIds ++ [t.tid]
        rw [← hidk, htk]
        exact List.mem_append_right _ (List.mem_singleton_self _)
      · right; left
        exact ⟨j, (hiffNe j id hji).mpr hj⟩
    · right; right; left
      show id ∈ s.executedIds ++ [t.tid]
      exact List.mem_append_left _ h3
    · right; right; right; left; exact h4
    · right; right; right; right; exact h5
  case held_not_queued =>
    intro j id hj
    by_cases hji : j = i
    · subst hji
      exact absurd hj (hNoSelf id)
    · rw [hiffNe j id hji] at hj
      exact hInv.held_not_queued j id hj
  case held_uniq =>
    intro j k id hj hk
    by_cases hji : j = i
    · subst hji
      exact absurd hj (hNoSelf id)
    · by_cases hki : k = i
      · subst hki
        exact absurd hk (hNoSelf id)
      · rw [hiffNe j id hji] at hj
        rw [hiffNe k id hki] at hk
        exact hInv.held_uniq j k id hj hk
  case pend_q =>
    intro id hid
    rw [hprom, hpne id (by rintro rfl; exact htid_not_q hid)]
    exact hInv.pend_q id hid
  case pend_held =>
    intro j id hj
    by_cases hji : j = i
    · subst hji
      exact absurd hj (hNoSelf id)
    · rw [hiffNe j id hji] at hj
      rw [hprom, hpne id (hOtherNe j id hji hj)]
      exact hInv.pend_held j id hj
  case done_fulfilled =>
    intro id hid
    have hid' : id ∈ s.executedIds ++ [t.tid] := hid
    rcases List.mem_append.mp hid' with hl | hr
    · by_cases hit : id = t.tid
      · subst hit
        exact ⟨r, by rw [hprom, hpeq]⟩
      · obtain ⟨r', hr'⟩ := hInv.done_fulfilled id hl
        exact ⟨r', by rw [hprom, hpne id hit, hr']⟩
    · rw [List.mem_singleton] at hr
      subst hr
      exact ⟨r, by rw [hprom, hpeq]⟩
  case disc_broken =>
    intro id hor
    have hbr := hInv.disc_broken id hor
    have hit : id ≠ t.tid := by
      rintro rfl
      rw [htid_pend] at hbr
      exact PromiseState.noConfusion hbr
    rw [hprom, hpne id hit]
    exact hbr
  case fresh_pending =>
    intro id hid
    have hid' : s.nextId ≤ id := hid
    have hit : id ≠ t.tid := by
      rintro rfl
      omega
    rw [hprom, hpne id hit]
    exact hInv.fresh_pending id hid'
  case active_eq =>
    rw [hth]
    have hc := countP_set_add (p := fun u : Worker V E => isActivePhase u.phase)
      (w := { w with phase := .ran t }) h
    simp only at hc
    have h1 : isActivePhase w.phase = true := by
      rw [hrun]
      rfl
    have h2 : isActivePhase (Phase.ran t : Phase V E) = true := rfl
    simp only [h1, h2, if_true] at hc
    have ha := hInv.active_eq
    have hact : (runOkTarget s i w t r).m_nActive = s.m_nActive := rfl
    rw [hact]
    omega
  case balance =>
    rw [hth]
    have hc := countP_set_add (p := fun u : Worker V E => isHeldPhase u.phase)
      (w := { w with phase := .ran t }) h
    simp only at hc
    have h1 : isHeldPhase w.phase = true := by
      rw [hrun]
      rfl
    have h2 : isHeldPhase (Phase.ran t : Phase V E) = false := rfl
    simp only [h1, h2, Bool.false_eq_true, if_false, if_true] at hc
    have hb := hInv.balance
    have hqt0 : queuedCount (runOkTarget s i w t r) = queuedCount s := rfl
    have e1 : (runOkTarget s i w t r).nextId = s.nextId := rfl
    have e2 : (runOkTarget s i w t r).executedIds = s.executedIds ++ [t.tid] := rfl
    have e3 : (runOkTarget s i w t r).discardedIds = s.discardedIds := rfl
    have e4 : (runOkTarget s i w t r).droppedIds = s.droppedIds := rfl
    rw [hqt0, e1, e2, e3, e4, List.length_append]
    simp only [List.length_singleton]
    omega

/-- Every transition starts from a live state. -/
lemma step_live {s u : ThreadPool V E} (hs : Step s u) : live s := by
  cases hs <;> assumption

/-- `Inv` is preserved by every transition. -/
lemma inv_step {s u : ThreadPool V E} (hInv : Inv s) (hs : Step s u) : Inv u := by
  cases hs with
  | submit body hlive => exact inv_addJob hInv body
  | clear hlive => exact inv_clearQueue hInv
  | reqStop i w hlive h => exact inv_stopTarget hInv h
  | pop i w t rest hlive h hidle htasks => exact inv_popTarget hInv h hidle htasks
  | halt i w hlive h hidle hstop hempty => exact inv_terminateTarget hInv h hidle
  | beginTask i w t hlive h hpop => exact inv_incrTarget hInv h hpop
  | runOk i w t r hlive h hrun hok => exact inv_runOkTarget hInv h hrun
  | runErr i w t e hlive h hrun herr => exact inv_runErrTarget hInv h hrun
  | endTask i w t hlive h hran => exact inv_decrTarget hInv h hran
  | destroy hlive hterm => exact inv_destroyPool hInv

lemma inv_reachable {s0 s : ThreadPool V E} (h0 : Inv s0)
    (hr : Reachable s0 s) : Inv s := by
  induction hr with
  | refl => exact h0
  | tail hr hs ih => exact inv_step ih hs

/-- Every state reachable from a freshly constructed pool satisfies `Inv`. -/
lemma reachable_inv {n : Nat} {s : ThreadPool V E}
    (hr : Reachable (init V E n) s) : Inv s :=
  inv_reachable (inv_init n) hr

/-- No transition changes the number of worker threads. -/
lemma step_threads_length {s u : ThreadPool V E} (hs : Step s u) :
    u.m_threads.length = s.m_threads.length := by
  cases hs <;>
    simp [addJob, clearQueue, stopTarget, popTarget, terminateTarget,
      incrTarget, runOkTarget, runErrTarget, decrTarget, destroyPool,
      setWorker, List.length_set]

/-- `threadCount` is fixed at construction. -/
lemma reachable_threads_length {n : Nat} {s : ThreadPool V E}
    (hr : Reachable (init V E n) s) : s.m_threads.length = n := by
  induction hr with
  | refl => simp [init]
  | tail hr hs ih => rw [step_threads_length hs, ih]

lemma step_discarded_mono {s u : ThreadPool V E} {id : Nat} (hs : Step s u)
    (hid : id ∈ s.discardedIds) : id ∈ u.discardedIds := by
  cases hs with
  | clear hlive => exact List.mem_append_left _ hid
  | _ => exact hid

lemma reachable_discarded_mono {s0 s : ThreadPool V E} {id : Nat}
    (hr : Reachable s0 s) (hid : id ∈ s0.discardedIds) : id ∈ s.discardedIds := by
  induction hr with
  | refl => exact hid
  | tail hr hs ih => exact step_discarded_mono hs ih

lemma step_lateSubmit {s u : ThreadPool V E} (hs : Step s u)
    (hl : u.lateSubmit = false) : s.lateSubmit = false := by
  cases hs with
  | submit body hlive =>
    have h1 : (s.lateSubmit || allTerminatedB s) = false := hl
    exact (Bool.or_eq_false_iff.mp h1).1
  | _ => exact hl

/-- A submission recorded while `lateSubmit` stays false happened while not
all workers had exited. -/
lemma step_submit_notTerminated {s : ThreadPool V E}
    (body : Unit → Except E (Option V))
    (hl : (addJob s body).lateSubmit = false) : allTerminatedB s = false := by
  have h1 : (s.lateSubmit || allTerminatedB s) = false := hl
  exact (Bool.or_eq_false_iff.mp h1).2

/-- One-step version of the drain argument: if in the source state full
termination implied an empty queue and nothing had been dropped, the same
holds after any transition whose target still has `lateSubmit = false`. -/
lemma step_drain {s u : ThreadPool V E} (hs : Step s u)
    (hl : u.lateSubmit = false)
    (ihT : allTerminatedB s = true → s.m_tasks = [])
    (ihD : s.droppedIds = []) :
    (allTerminatedB u = true → u.m_tasks = []) ∧ u.droppedIds = [] := by
  cases hs with
  | submit body hlive =>
    refine ⟨?_, ihD⟩
    intro hterm
    have hterm' : allTerminatedB s = true := hterm
    have hfalse := step_submit_notTerminated body hl
    rw [hfalse] at hterm'
    exact Bool.noConfusion hterm'
  | clear hlive => exact ⟨fun _ => rfl, ihD⟩
  | reqStop i w hlive h =>
    refine ⟨?_, ihD⟩
    intro hterm
    have h0 : (s.m_threads.set i { w with stopReq := true }).all
        (fun w : Worker V E => isTerminated w.phase) = true := hterm
    have hcongr := all_set_congr (p := fun w : Worker V E => isTerminated w.phase)
      (w := { w with stopReq := true }) h rfl
    rw [hcongr] at h0
    exact ihT h0
  | pop i w t rest hlive h hidle htasks =>
    refine ⟨?_, ihD⟩
    intro hterm
    have h0 : (s.m_threads.set i { w with phase := .popped t }).all
        (fun w : Worker V E => isTerminated w.phase) = true := hterm
    have hfalse := all_set_false (p := fun w : Worker V E => isTerminated w.phase)
      (w := { w with phase := .popped t }) h (by rfl)
    exact Bool.noConfusion (hfalse.symm.trans h0)
  | halt i w hlive h hidle hstop hempty => exact ⟨fun _ => hempty, ihD⟩
  | beginTask i w t hlive h hpop =>
    refine ⟨?_, ihD⟩
    intro hterm
    have h0 : (s.m_threads.set i { w with phase := .running t }).all
        (fun w : Worker V E => isTerminated w.phase) = true := hterm
    have hfalse := all_set_false (p := fun w : Worker V E => isTerminated w.phase)
      (w := { w with phase := .running t }) h (by rfl)
    exact Bool.noConfusion (hfalse.symm.trans h0)
  | runOk i w t r hlive h hrun hok =>
    refine ⟨?_, ihD⟩
    intro hterm
    have h0 : (s.m_threads.set i { w with phase := .ran t }).all
        (fun w : Worker V E => isTerminated w.phase) = true := hterm
    have hfalse := all_set_false (p := fun w : Worker V E => isTerminated w.phase)
      (w := { w with phase := .ran t }) h (by rfl)
    exact Bool.noConfusion (hfalse.symm.trans h0)
  | runErr i w t e hlive h hrun herr =>
    refine ⟨?_, ihD⟩
    intro hterm
    have h0 : (s.m_threads.set i { w with phase := .crashed t }).all
        (fun w : Worker V E => isTerminated w.phase) = true := hterm
    have hfalse := all_set_false (p := fun w : Worker V E => isTerminated w.phase)
      (w := { w with phase := .crashed t }) h (by rfl)
    exact Bool.noConfusion (hfalse.symm.trans h0)
  | endTask i w t hlive h hran =>
    refine ⟨?_, ihD⟩
    intro hterm
    have h0 : (s.m_threads.set i { w with phase := .idle }).all
        (fun w : Worker V E => isTerminated w.phase) = true := hterm
    have hfalse := all_set_false (p := fun w : Worker V E => isTerminated w.phase)
      (w := { w with phase := .idle }) h (by rfl)
    exact Bool.noConfusion (hfalse.symm.trans h0)
  | destroy hlive hterm =>
    refine ⟨fun _ => rfl, ?_⟩
    have hempty : s.m_tasks = [] := ihT hterm
    show s.droppedIds ++ queueIds s = []
    rw [ihD]
    unfold queueIds
    rw [hempty]
    rfl

/-- As long as no submission happened after all workers exited: once every
worker has terminated the queue is empty (each worker drains before its
terminating `return`), and nothing was ever dropped at destruction. -/
lemma drained_of_notLate {n : Nat} {s : ThreadPool V E}
    (hr : Reachable (init V E n) s) :
    s.lateSubmit = false →
    (allTerminatedB s = true → s.m_tasks = []) ∧ s.droppedIds = [] := by
  induction hr with
  | refl => exact fun _ => ⟨fun _ => rfl, rfl⟩
  | tail hr hs ih =>
    intro hl
    obtain ⟨ihT, ihD⟩ := ih (step_lateSubmit hs hl)
    exact step_drain hs hl ihT ihD

/-- A transition into a destroyed state comes from `destroy`: the queue is
empty only because `destroy` empties it, and every worker had exited. -/
lemma step_to_destroyed {s u : ThreadPool V E} (hs : Step s u)
    (hd : u.destroyed = true) :
    u.m_tasks = [] ∧ allTerminatedB u = true := by
  cases hs with
  | destroy hlive hterm => exact ⟨rfl, hterm⟩
  | submit body hlive => simp [addJob, hlive.2] at hd
  | clear hlive => simp [clearQueue, hlive.2] at hd
  | reqStop i w hlive h => simp [stopTarget, setWorker, hlive.2] at hd
  | pop i w t rest hlive h hidle htasks => simp [popTarget, setWorker, hlive.2] at hd
  | halt i w hlive h hidle hstop hempty =>
    simp [terminateTarget, setWorker, hlive.2] at hd
  | beginTask i w t hlive h hpop => simp [incrTarget, setWorker, hlive.2] at hd
  | runOk i w t r hlive h hrun hok => simp [runOkTarget, setWorker, hlive.2] at hd
  | runErr i w t e hlive h hrun herr => simp [runErrTarget, setWorker, hlive.2] at hd
  | endTask i w t hlive h hran => simp [decrTarget, setWorker, hlive.2] at hd

/-- Once `destroyed` holds, the queue is empty and every worker exited. -/
lemma destroyed_final {n : Nat} {s : ThreadPool V E}
    (hr : Reachable (init V E n) s) (hd : s.destroyed = true) :
    s.m_tasks = [] ∧ allTerminatedB s = true := by
  cases hr with
  | refl => exact absurd hd (by simp [init])
  | tail hr hs => exact step_to_destroyed hs hd

/-- After the process aborted (`std::terminate`), nothing happens any more. -/
lemma no_step_of_aborted {s : ThreadPool V E} (ha : s.aborted = true) :
    ∀ u, ¬ Step s u := by
  intro u hs
  have h1 := (step_live hs).1
  rw [ha] at h1
  exact Bool.noConfusion h1

lemma countP_congr_list {α : Type} {p q : α → Bool} {l : List α}
    (h : ∀ a ∈ l, p a = q a) : l.countP p = l.countP q := by
  induction l with
  | nil => rfl
  | cons a tl ih =>
    rw [List.countP_cons, List.countP_cons, h a (List.mem_cons_self a tl),
      ih fun b hb => h b (List.mem_cons_of_mem a hb)]

lemma reach_dv1 : Reachable (init Nat Nat 1) dv1 :=
  Reachable.tail Reachable.refl (Step.submit _ bodyOk ⟨rfl, rfl⟩)

lemma reach_dv2 : Reachable (init Nat Nat 1) dv2 :=
  Reachable.tail reach_dv1 (Step.pop dv1 0 ⟨.idle, false⟩ t7 [] ⟨rfl, rfl⟩ rfl rfl rfl)

lemma reach_dv3 : Reachable (init Nat Nat 1) dv3 :=
  Reachable.tail reach_dv2 (Step.beginTask dv2 0 ⟨.popped t7, false⟩ t7 ⟨rfl, rfl⟩ rfl rfl)

lemma reach_dv4 : Reachable (init Nat Nat 1) dv4 :=
  Reachable.tail reach_dv3
    (Step.runOk dv3 0 ⟨.running t7, false⟩ t7 (some 7) ⟨rfl, rfl⟩ rfl rfl rfl)

lemma reach_dv5 : Reachable (init Nat Nat 1) dv5 :=
  Reachable.tail reach_dv4 (Step.endTask dv4 0 ⟨.ran t7, false⟩ t7 ⟨rfl, rfl⟩ rfl rfl)

lemma reach_dv6 : Reachable (init Nat Nat 1) dv6 :=
  Reachable.tail reach_dv5 (Step.reqStop dv5 0 ⟨.idle, false⟩ ⟨rfl, rfl⟩ rfl)

lemma reach_dv7 : Reachable (init Nat Nat 1) dv7 :=
  Reachable.tail reach_dv6 (Step.halt dv6 0 ⟨.idle, true⟩ ⟨rfl, rfl⟩ rfl rfl rfl rfl)

lemma reach_dv8 : Reachable (init Nat Nat 1) dv8 :=
  Reachable.tail reach_dv7 (Step.destroy dv7 ⟨rfl, rfl⟩ rfl)

lemma reach_dz3 : Reachable (init Nat Nat 1) dz3 :=
  Reachable.tail
    (Reachable.tail
      (Reachable.tail Reachable.refl (Step.submit _ bodyVoid ⟨rfl, rfl⟩))
      (Step.pop dz1 0 ⟨.idle, false⟩ tv [] ⟨rfl, rfl⟩ rfl rfl rfl))
    (Step.beginTask dz2 0 ⟨.popped tv, false⟩ tv ⟨rfl, rfl⟩ rfl rfl)

lemma reach_df3 : Reachable (init Nat Nat 1) df3 :=
  Reachable.tail
    (Reachable.tail
      (Reachable.tail Reachable.refl (Step.submit _ bodyErr ⟨rfl, rfl⟩))
      (Step.pop df1 0 ⟨.idle, false⟩ te [] ⟨rfl, rfl⟩ rfl rfl rfl))
    (Step.beginTask df2 0 ⟨.popped te, false⟩ te ⟨rfl, rfl⟩ rfl rfl)

lemma reach_df4 : Reachable (init Nat Nat 1) df4 :=
  Reachable.tail reach_df3
    (Step.runErr df3 0 ⟨.running te, false⟩ te 5 ⟨rfl, rfl⟩ rfl rfl rfl)

lemma reach_ds2 : Reachable (init Nat Nat 1) ds2 :=
  Reachable.tail
    (Reachable.tail Reachable.refl
      (Step.reqStop (init Nat Nat 1) 0 ⟨.idle, false⟩ ⟨rfl, rfl⟩ rfl))
    (Step.submit ds1 bodyOk ⟨rfl, rfl⟩)

lemma reach_dq2 : Reachable (init Nat Nat 0) dq2 :=
  Reachable.tail
    (Reachable.tail Reachable.refl (Step.submit _ bodyOk ⟨rfl, rfl⟩))
    (Step.submit dq1 bodyOk ⟨rfl, rfl⟩)

lemma reach_dc4 : Reachable (init Nat Nat 1) dc4 :=
  Reachable.tail reach_dv3 (Step.submit dv3 bodyOk ⟨rfl, rfl⟩)

lemma reach_db2 : Reachable (init Nat Nat 0) db2 :=
  Reachable.tail
    (Reachable.tail Reachable.refl (Step.submit _ bodyOk ⟨rfl, rfl⟩))
    (Step.clear db1 ⟨rfl, rfl⟩)

lemma reach_dk2 : Reachable (init Nat Nat 0) dk2 :=
  Reachable.tail
    (Reachable.tail Reachable.refl (Step.submit _ bodyOk ⟨rfl, rfl⟩))
    (Step.destroy dk1 ⟨rfl, rfl⟩ rfl)

/-- C9: for every N ≥ 0, a freshly constructed pool — the state right after
the constructor returns — reports `threadCount() == N`, `activeCount() == 0`
and `queuedCount() == 0`. -/
theorem fresh_pool_counts (n : Nat) :
    threadCount (init V E n) = n ∧ activeCount (init V E n) = 0 ∧
    queuedCount (init V E n) = 0 := by
  refine ⟨?_, rfl, rfl⟩
  show (List.replicate n ({ phase := .idle, stopReq := false } : Worker V E)).length = n
  exact List.length_replicate n _

/-- C10: in every reachable state, `0 ≤ activeCount() ≤ threadCount() = N`:
`m_nActive` always equals the number of workers currently between
`m_nActive++` and `m_nActive--`, each of the `N` workers runs at most one
task at a time, and the worker set never changes size. -/
theorem active_count_bounded {n : Nat} {s : ThreadPool V E}
    (hr : Reachable (init V E n) s) :
    activeCount s ≤ threadCount s ∧ threadCount s = n ∧
    activeCount s = s.m_threads.countP fun w => isActivePhase w.phase := by
  have hInv := reachable_inv hr
  refine ⟨?_, reachable_threads_length hr, hInv.active_eq⟩
  show s.m_nActive ≤ s.m_threads.length
  rw [hInv.active_eq]
  exact List.countP_le_length _

/-- C10 witness: a pool of one worker with its task running reports
`activeCount = 1 ≤ 1 = threadCount`. -/
theorem active_count_bounded_witness :
    activeCount dv3 ≤ threadCount dv3 ∧ threadCount dv3 = 1 := by
  have h := active_count_bounded reach_dv3
  exact ⟨h.1, h.2.1⟩

/-- C4: strict FIFO. Task ids are handed out in submission order
(`submittedIds = [0, 1, …]`, so a task enqueued strictly earlier has a
strictly smaller id), and whenever the queue is `a :: l`, the task `a` the
worker dequeues (`m_tasks.front()`) was enqueued strictly before every task
still queued behind it — across all submitters, since every enqueue appends
at the back under the same lock. -/
theorem fifo_dequeue_order {n : Nat} {s : ThreadPool V E}
    (hr : Reachable (init V E n) s) :
    s.submittedIds = List.range s.nextId ∧
    ∀ (a : Task V E) (l : List (Task V E)), s.m_tasks = a :: l →
      ∀ b ∈ l, a.tid < b.tid := by
  have hInv := reachable_inv hr
  refine ⟨hInv.subm_eq, ?_⟩
  intro a l hal b hb
  have hs := hInv.q_sorted
  unfold queueIds at hs
  rw [hal, List.map_cons] at hs
  exact (List.pairwise_cons.mp hs).1 b.tid (List.mem_map_of_mem _ hb)

/-- C4 witness: after two submissions to an idle pool the queue holds the
first-submitted task in front of the second. -/
theorem fifo_dequeue_order_witness :
    dq2.submittedIds = [0, 1] ∧
    Task.tid (⟨0, bodyOk⟩ : Task Nat Nat) < Task.tid (⟨1, bodyOk⟩ : Task Nat Nat) := by
  have h := fifo_dequeue_order reach_dq2
  constructor
  · rw [h.1]
    decide
  · exact h.2 ⟨0, bodyOk⟩ [⟨1, bodyOk⟩] rfl ⟨1, bodyOk⟩ (List.mem_singleton_self _)

/-- C8: a result handle whose producer was destroyed without fulfilling it
(its task discarded by `clearQueue`, or dropped when the destroyed pool's
queue was destructed) carries the broken-promise error, and observing it
returns that error immediately instead of blocking or yielding a value. -/
theorem broken_handle_observation {n : Nat} {s : ThreadPool V E} {id : Nat}
    (hr : Reachable (init V E n) s)
    (hid : id ∈ s.discardedIds ∨ id ∈ s.droppedIds) :
    s.promises id = PromiseState.broken ∧
    observeFuture (s.promises id) = some FutureOutcome.brokenError := by
  have hb := (reachable_inv hr).disc_broken id hid
  exact ⟨hb, by rw [hb]; rfl⟩

/-- C8 witness: the handle of the task discarded by `clearQueue` in the
concrete run reports the broken-promise error when observed. -/
theorem broken_handle_observation_witness :
    db2.promises 0 = PromiseState.broken ∧
    observeFuture (db2.promises 0) = some FutureOutcome.brokenError :=
  broken_handle_observation reach_db2 (Or.inl (by decide))

/-- C3 counterexample: one task submitted to a one-worker pool; after the
worker has popped it (line 70) but before `m_nActive++` (line 73) the task
is counted in none of queued, active or completed —
`activeCount + queuedCount + completedCount = 0` although one task was
submitted, refuting the claimed constant sum `= K`. -/
theorem counts_counterexample :
    Reachable (init Nat Nat 1) dv2 ∧ submittedCount dv2 = 1 ∧
    activeCount dv2 + queuedCount dv2 + completedCount dv2 = 0 :=
  ⟨reach_dv2, rfl, rfl⟩

/-- C3 amended: a task is never simultaneously counted as active and as
queued, and the balance `activeCount + queuedCount + completedCount = K`
holds in every reachable state in which no worker sits in a handoff window
(between `pop` and `m_nActive++`, or between the body returning and
`m_nActive--`) and nothing was discarded. -/
theorem counts_balance {n : Nat} {s : ThreadPool V E}
    (hr : Reachable (init V E n) s) (hdisc : s.discardedIds = [])
    (hdrop : s.droppedIds = [])
    (hquiet : ∀ w ∈ s.m_threads, isHeldPhase w.phase = isActivePhase w.phase) :
    activeCount s + queuedCount s + completedCount s = submittedCount s ∧
    ∀ (i : Nat) (w : Worker V E) (t : Task V E), s.m_threads[i]? = some w →
      heldTaskOf w.phase = some t → t.tid ∉ queueIds s := by
  have hInv := reachable_inv hr
  constructor
  · have hcong : (s.m_threads.countP fun w => isHeldPhase w.phase) =
        s.m_threads.countP fun w => isActivePhase w.phase :=
      countP_congr_list fun a ha => hquiet a ha
    have hb := hInv.balance
    have ha := hInv.active_eq
    have hsc : submittedCount s = s.nextId := by
      unfold submittedCount
      rw [hInv.subm_eq, List.length_range]
    rw [hdisc, hdrop] at hb
    simp only [List.length_nil] at hb
    unfold activeCount completedCount
    rw [hsc]
    omega
  · intro i w t hw ht
    exact hInv.held_not_queued i t.tid ⟨w, t, hw, ht, rfl⟩

/-- C3 witness: after the single task ran to completion and the worker
returned to waiting, `0 + 0 + 1 = 1`. -/
theorem counts_balance_witness :
    activeCount dv5 + queuedCount dv5 + completedCount dv5 = submittedCount dv5 :=
  (counts_balance reach_dv5 rfl rfl (by decide)).1

/-- C5 counterexample: a pool constructed with zero workers and one pending
task is destroyed; teardown completes (every — zero — worker has exited,
`destroyed` holds) yet the submitted task never ran, its handle is broken,
and the queue was truncated (the task was dropped), refuting the claim
that destruction blocks until all pending tasks have run to completion. -/
theorem teardown_counterexample :
    Reachable (init Nat Nat 0) dk2 ∧ dk2.destroyed = true ∧
    dk2.submittedIds = [0] ∧ dk2.executedIds = [] ∧
    dk2.promises 0 = PromiseState.broken ∧ dk2.droppedIds = [0] := by
  refine ⟨reach_dk2, rfl, rfl, rfl, ?_, rfl⟩
  rfl

/-- C5 amended: for teardown completing with no submission racing past the
end of the workers (`lateSubmit = false`, always the case when N ≥ 1 and
submitters stop before the last worker exits) and no explicit
`clearQueue`: when the destructor has finished, every worker has exited,
the queue is empty — nothing was truncated or dropped — and every task
ever submitted has run to completion with its handle fulfilled. -/
theorem teardown_drains {n : Nat} {s : ThreadPool V E}
    (hr : Reachable (init V E n) s) (hd : s.destroyed = true)
    (hl : s.lateSubmit = false) (hdisc : s.discardedIds = []) :
    (∀ w ∈ s.m_threads, w.phase = Phase.terminated) ∧ s.m_tasks = [] ∧
    s.droppedIds = [] ∧
    ∀ id ∈ s.submittedIds, id ∈ s.executedIds ∧
      ∃ r, s.promises id = PromiseState.fulfilled r := by
  have hInv := reachable_inv hr
  obtain ⟨hempty, hterm⟩ := destroyed_final hr hd
  obtain ⟨_, hdrop⟩ := drained_of_notLate hr hl
  have hwterm : ∀ w ∈ s.m_threads, w.phase = Phase.terminated := by
    intro w hw
    exact phase_eq_of_isTerminated (List.all_eq_true.mp hterm w hw)
  refine ⟨hwterm, hempty, hdrop, ?_⟩
  intro id hid
  rw [hInv.subm_eq] at hid
  have hlt : id < s.nextId := List.mem_range.mp hid
  rcases hInv.exh id hlt with h1 | h2 | h3 | h4 | h5
  · exfalso
    unfold queueIds at h1
    rw [hempty] at h1
    exact List.not_mem_nil id h1
  · exfalso
    obtain ⟨j, wj, tj, hwj, htj, _⟩ := h2
    have hwmem : wj ∈ s.m_threads := List.getElem?_mem hwj
    rw [hwterm wj hwmem] at htj
    simp [heldTaskOf] at htj
  · exact ⟨h3, hInv.done_fulfilled id h3⟩
  · rw [hdisc] at h4
    exact absurd h4 (List.not_mem_nil id)
  · rw [hdrop] at h5
    exact absurd h5 (List.not_mem_nil id)

/-- C5 witness: in the complete one-worker run, after destruction the
submitted task had been executed, nothing remained queued and nothing was
dropped. -/
theorem teardown_drains_witness :
    0 ∈ dv8.executedIds ∧ dv8.m_tasks = [] ∧ dv8.droppedIds = [] := by
  have h := teardown_drains reach_dv8 rfl rfl rfl
  exact ⟨(h.2.2.2 0 (by decide)).1, h.2.1, h.2.2.1⟩

lemma set_getElem?_eq_of {α : Type} {l : List α} {j i : Nat} {a w w' : α}
    (h : l[i]? = some w) (h' : (l.set j a)[i]? = some w') :
    (j = i ∧ w' = a) ∨ w' = w := by
  rw [List.getElem?_set] at h'
  by_cases hji : j = i
  · subst hji
    rw [if_pos rfl, if_pos (lt_length_of_getElem? h)] at h'
    exact Or.inl ⟨rfl, (Option.some_inj.mp h').symm⟩
  · rw [if_neg hji, h] at h'
    exact Or.inr (Option.some_inj.mp h').symm

/-- C2: a worker takes its terminating `return` (line 66) only when its
stop token was triggered AND the queue was empty at that moment; and with a
stop already requested, a worker facing a non-empty queue still performs
the dequeue transition of lines 69-71 — the queue is drained, never
abandoned. -/
theorem worker_termination {n : Nat} {s : ThreadPool V E}
    (hr : Reachable (init V E n) s) :
    (∀ (u : ThreadPool V E) (i : Nat) (w w' : Worker V E), Step s u →
      s.m_threads[i]? = some w → u.m_threads[i]? = some w' →
      w.phase ≠ Phase.terminated → w'.phase = Phase.terminated →
      w.stopReq = true ∧ s.m_tasks = []) ∧
    (∀ (i : Nat) (w : Worker V E) (t : Task V E) (l : List (Task V E)),
      live s → s.m_threads[i]? = some w → w.phase = .idle → w.stopReq = true →
      s.m_tasks = t :: l → Step s (popTarget s i w t l)) := by
  constructor
  · intro u i w w' hstep h h' hne hterm'
    cases hstep with
    | submit body hlive =>
      have h'' : s.m_threads[i]? = some w' := h'
      rw [h] at h''
      obtain rfl := Option.some_inj.mp h''
      exact absurd hterm' hne
    | clear hlive =>
      have h'' : s.m_threads[i]? = some w' := h'
      rw [h] at h''
      obtain rfl := Option.some_inj.mp h''
      exact absurd hterm' hne
    | destroy hlive hterm =>
      have h'' : s.m_threads[i]? = some w' := h'
      rw [h] at h''
      obtain rfl := Option.some_inj.mp h''
      exact absurd hterm' hne
    | reqStop j w0 hlive h0 =>
      have h'' : (s.m_threads.set j { w0 with stopReq := true })[i]? = some w' := h'
      rcases set_getElem?_eq_of h h'' with ⟨hji, rfl⟩ | rfl
      · subst hji
        have hw0 : w = w0 := Option.some_inj.mp (h.symm.trans h0)
        subst hw0
        exact absurd hterm' hne
      · exact absurd hterm' hne
    | pop j w0 t l hlive h0 hidle htasks =>
      have h'' : (s.m_threads.set j { w0 with phase := .popped t })[i]? = some w' := h'
      rcases set_getElem?_eq_of h h'' with ⟨hji, rfl⟩ | rfl
      · exact Phase.noConfusion hterm'
      · exact absurd hterm' hne
    | halt j w0 hlive h0 hidle hstop hempty =>
      have h'' : (s.m_threads.set j { w0 with phase := .terminated })[i]? = some w' := h'
      rcases set_getElem?_eq_of h h'' with ⟨hji, rfl⟩ | rfl
      · subst hji
        have hw0 : w = w0 := Option.some_inj.mp (h.symm.trans h0)
        subst hw0
        exact ⟨hstop, hempty⟩
      · exact absurd hterm' hne
    | beginTask j w0 t hlive h0 hpop =>
      have h'' : (s.m_threads.set j { w0 with phase := .running t })[i]? = some w' := h'
      rcases set_getElem?_eq_of h h'' with ⟨hji, rfl⟩ | rfl
      · exact Phase.noConfusion hterm'
      · exact absurd hterm' hne
    | runOk j w0 t r hlive h0 hrun hok =>
      have h'' : (s.m_threads.set j { w0 with phase := .ran t })[i]? = some w' := h'
      rcases set_getElem?_eq_of h h'' with ⟨hji, rfl⟩ | rfl
      · exact Phase.noConfusion hterm'
      · exact absurd hterm' hne
    | runErr j w0 t e hlive h0 hrun herr =>
      have h'' : (s.m_threads.set j { w0 with phase := .crashed t })[i]? = some w' := h'
      rcases set_getElem?_eq_of h h'' with ⟨hji, rfl⟩ | rfl
      · exact Phase.noConfusion hterm'
      · exact absurd hterm' hne
    | endTask j w0 t hlive h0 hran =>
      have h'' : (s.m_threads.set j { w0 with phase := .idle })[i]? = some w' := h'
      rcases set_getElem?_eq_of h h'' with ⟨hji, rfl⟩ | rfl
      · exact Phase.noConfusion hterm'
      · exact absurd hterm' hne
  · intro i w t l hlive h hidle hstop htasks
    exact Step.pop s i w t l hlive h hidle htasks

/-- C2 witness: with the stop signal already requested and one task queued,
the worker's dequeue transition is taken (it does not abandon the task). -/
theorem worker_termination_witness :
    Step ds2 (popTarget ds2 0 ⟨.idle, true⟩ ⟨0, bodyOk⟩ []) := by
  have h := worker_termination reach_ds2
  exact h.2 0 ⟨.idle, true⟩ ⟨0, bodyOk⟩ [] ⟨rfl, rfl⟩ rfl rfl rfl rfl

/-- C6: when the worker runs a task built by `addJob` from a callable and
its bound arguments, the handle is fulfilled with exactly the callable's
value — `observeFuture` returns `value (some v)` where `v = f(args)` — and
for a void callable the handle is fulfilled with the distinct no-value
completion signal `value none`, different from every `value (some v)`. -/
theorem result_propagation {n : Nat} {s : ThreadPool V E} {i : Nat}
    {w : Worker V E} {t : Task V E}
    (hr : Reachable (init V E n) s) (hlive : live s)
    (h : s.m_threads[i]? = some w) (hrun : w.phase = .running t) :
    (∀ (f : A → Except E V) (a : A) (v : V), t.body = valueClosure f a →
      f a = .ok v →
      Step s (runOkTarget s i w t (some v)) ∧
      observeFuture ((runOkTarget s i w t (some v)).promises t.tid) =
        some (FutureOutcome.value (some v))) ∧
    (∀ (g : A → Except E Unit) (a : A) (u : Unit), t.body = voidClosure g a →
      g a = .ok u →
      Step s (runOkTarget s i w t none) ∧
      observeFuture ((runOkTarget s i w t none).promises t.tid) =
        some (FutureOutcome.value none) ∧
      ∀ v : V, (FutureOutcome.value none : FutureOutcome V E) ≠
        FutureOutcome.value (some v)) := by
  constructor
  · intro f a v hbody hfa
    have hok : t.body () = .ok (some v) := by
      rw [hbody]
      unfold valueClosure
      rw [hfa]
      rfl
    refine ⟨Step.runOk s i w t (some v) hlive h hrun hok, ?_⟩
    have hp : (runOkTarget s i w t (some v)).promises t.tid =
        PromiseState.fulfilled (some v) := by
      show setPromise s.promises t.tid (.fulfilled (some v)) t.tid = _
      unfold setPromise
      rw [if_pos rfl]
    rw [hp]
    rfl
  · intro g a u hbody hga
    have hok : t.body () = .ok none := by
      rw [hbody]
      unfold voidClosure
      rw [hga]
      rfl
    refine ⟨Step.runOk s i w t none hlive h hrun hok, ?_, ?_⟩
    · have hp : (runOkTarget s i w t none).promises t.tid =
          PromiseState.fulfilled none := by
        show setPromise s.promises t.tid (.fulfilled none) t.tid = _
        unfold setPromise
        rw [if_pos rfl]
      rw [hp]
      rfl
    · intro v hv
      exact Option.noConfusion (FutureOutcome.value.inj hv)

/-- C6 witness: the concrete value task delivers `value (some 7)` (the
callable returned `7`) and the concrete void task delivers `value none`. -/
theorem result_propagation_witness :
    observeFuture ((runOkTarget dv3 0 ⟨.running t7, false⟩ t7 (some 7)).promises 0) =
      some (FutureOutcome.value (some 7)) ∧
    observeFuture ((runOkTarget dz3 0 ⟨.running tv, false⟩ tv none).promises 0) =
      some (FutureOutcome.value none) := by
  have h1 := result_propagation (A := Nat) (i := 0) (w := ⟨.running t7, false⟩) (t := t7)
    reach_dv3 ⟨rfl, rfl⟩ rfl rfl
  have h2 := result_propagation (A := Nat) (i := 0) (w := ⟨.running tv, false⟩) (t := tv)
    reach_dz3 ⟨rfl, rfl⟩ rfl rfl
  exact ⟨(h1.1 fseven 0 7 rfl rfl).2, (h2.2 gvoid 0 Unit.unit rfl rfl).2.1⟩

/-- C7: `clearQueue` replaces the queue by an empty one under the lock —
`queuedCount` is zero immediately after, a discarded task's body never runs
in any later state, the workers themselves are untouched, and a task
already dequeued by a worker keeps its pending promise, can still complete
its run, and its handle is then fulfilled normally. -/
theorem clearQueue_spec {n : Nat} {s : ThreadPool V E}
    (hr : Reachable (init V E n) s) :
    queuedCount (clearQueue s) = 0 ∧
    (∀ s', Reachable (clearQueue s) s' → ∀ t ∈ s.m_tasks,
      Task.tid t ∉ s'.executedIds) ∧
    (clearQueue s).m_threads = s.m_threads ∧
    ∀ (i : Nat) (w : Worker V E) (t : Task V E), s.m_threads[i]? = some w →
      heldTaskOf w.phase = some t →
      (clearQueue s).promises t.tid = s.promises t.tid ∧
      (clearQueue s).promises t.tid = PromiseState.pending ∧
      ∀ r : Option V, live s → w.phase = .running t → t.body () = .ok r →
        Step (clearQueue s) (runOkTarget (clearQueue s) i w t r) ∧
        (runOkTarget (clearQueue s) i w t r).promises t.tid =
          PromiseState.fulfilled r := by
  have hInv := reachable_inv hr
  have hInvC : Inv (clearQueue s) := inv_clearQueue hInv
  refine ⟨rfl, ?_, rfl, ?_⟩
  · intro s' hs' t ht hmem
    have htid : Task.tid t ∈ (clearQueue s).discardedIds := by
      show Task.tid t ∈ s.discardedIds ++ queueIds s
      exact List.mem_append_right _ (List.mem_map_of_mem _ ht)
    have htid' : Task.tid t ∈ s'.discardedIds := reachable_discarded_mono hs' htid
    have hInv' : Inv s' := inv_reachable hInvC hs'
    have hbroken := hInv'.disc_broken _ (Or.inl htid')
    obtain ⟨r, hrf⟩ := hInv'.done_fulfilled _ hmem
    rw [hbroken] at hrf
    exact PromiseState.noConfusion hrf
  · intro i w t hw ht
    have hheld : HeldBy s i t.tid := ⟨w, t, hw, ht, rfl⟩
    have hnq : t.tid ∉ queueIds s := hInv.held_not_queued i t.tid hheld
    have hunch : (clearQueue s).promises t.tid = s.promises t.tid := by
      show breakPromises s.promises (queueIds s) t.tid = s.promises t.tid
      exact breakPromises_not_mem hnq
    have hpend := hInv.pend_held i t.tid hheld
    refine ⟨hunch, by rw [hunch]; exact hpend, ?_⟩
    intro r hlive hrun hok
    have hw' : (clearQueue s).m_threads[i]? = some w := hw
    refine ⟨Step.runOk (clearQueue s) i w t r ⟨hlive.1, hlive.2⟩ hw' hrun hok, ?_⟩
    show setPromise (clearQueue s).promises t.tid (.fulfilled r) t.tid = _
    unfold setPromise
    rw [if_pos rfl]

/-- C7 witness: with one task running and a second queued, clearing leaves
the queue empty, the discarded task (id 1) is never executed, and the
running task's handle (id 0) is still pending, to be fulfilled by its run. -/
theorem clearQueue_spec_witness :
    queuedCount (clearQueue dc4) = 0 ∧
    (1 : Nat) ∉ (clearQueue dc4).executedIds ∧
    (clearQueue dc4).promises 0 = PromiseState.pending := by
  have h := clearQueue_spec reach_dc4
  refine ⟨h.1, ?_, ?_⟩
  · exact h.2.1 (clearQueue dc4) Reachable.refl ⟨1, bodyOk⟩ (List.mem_singleton_self _)
  · exact (h.2.2.2 0 ⟨.running t7, false⟩ t7 rfl rfl).2.1

/-- C1 amended: the source installs no failure capture (no handler exists
in the task closure of `addJob` or the worker loop): when a task body
raises, the transition dictated by the code leaves the task's promise
pending — the failure is never delivered through the handle, whose
observation would block — the process aborts, and no further transition of
any thread exists. -/
theorem task_failure_not_captured {n : Nat} {s : ThreadPool V E} {i : Nat}
    {w : Worker V E} {t : Task V E} {e : E}
    (hr : Reachable (init V E n) s) (hlive : live s)
    (h : s.m_threads[i]? = some w) (hrun : w.phase = .running t)
    (herr : t.body () = .error e) :
    Step s (runErrTarget s i w t) ∧
    (runErrTarget s i w t).promises t.tid = PromiseState.pending ∧
    (runErrTarget s i w t).promises t.tid ≠ PromiseState.failed e ∧
    observeFuture ((runErrTarget s i w t).promises t.tid) = none ∧
    (runErrTarget s i w t).aborted = true ∧
    ∀ u, ¬ Step (runErrTarget s i w t) u := by
  have hInv := reachable_inv hr
  have hpend : s.promises t.tid = PromiseState.pending :=
    hInv.pend_held i t.tid ⟨w, t, h, by rw [hrun]; rfl, rfl⟩
  have hpe : (runErrTarget s i w t).promises t.tid = PromiseState.pending := hpend
  refine ⟨Step.runErr s i w t e hlive h hrun herr, hpe, ?_, ?_, rfl, ?_⟩
  · rw [hpe]
    exact fun hcontra => PromiseState.noConfusion hcontra
  · rw [hpe]
    rfl
  · exact no_step_of_aborted rfl

/-- C1 counterexample: a callable that raises `5`; after the worker invokes
it, the code (which contains no handler) leaves the promise pending — the
failure is never delivered through the handle — the worker is crashed, not
back waiting, and the process has aborted, refuting the claim that
failures are captured at the worker loop boundary and delivered through
the result handle. -/
theorem task_failure_counterexample :
    Reachable (init Nat Nat 1) df4 ∧
    df4.promises 0 = PromiseState.pending ∧
    df4.promises 0 ≠ PromiseState.failed 5 ∧
    df4.aborted = true ∧
    df4.m_threads = [⟨Phase.crashed te, false⟩] := by
  refine ⟨reach_df4, rfl, ?_, rfl, rfl⟩
  intro hc
  exact PromiseState.noConfusion hc

/-- C1 witness: the concrete failing run takes the abort transition and its
promise stays pending. -/
theorem task_failure_witness :
    Step df3 (runErrTarget df3 0 ⟨.running te, false⟩ te) ∧
    (runErrTarget df3 0 ⟨.running te, false⟩ te).promises 0 =
      PromiseState.pending ∧
    (runErrTarget df3 0 ⟨.running te, false⟩ te).aborted = true := by
  have h := task_failure_not_captured (i := 0) (w := ⟨.running te, false⟩)
    (t := te) (e := 5) reach_df3 ⟨rfl, rfl⟩ rfl rfl rfl
  exact ⟨h.1, h.2.1, h.2.2.2.2.1⟩

end threadpool
